import Mathlib

/-!
Verification of the find-and-replace engine and its Svelte presentation layer
(`src/frontend/src/FindReplaceView.svelte`).

The engine itself (ByteScanner, ReplacementPlanner, ResourceMutator) is not
present in the visible sources; only its caller is.  Its definitions below are
therefore modelled from the specification text (sections 3, 4.1, 4.2, 4.3 and 9
of the spec), using the documented default byte encoding: request texts are raw
byte sequences, so `findText`/`replaceText` are `List Nat` already.
-/

/-- Modelled from the spec: an Occurrence is "a (start offset, length) pair
identifying one match of SearchPattern inside ResourceBuffer" (spec section 3).
The engine source is absent from the repository snapshot, so this is built from
the spec's data model. -/
structure Occurrence where
  start : Nat
  length : Nat
deriving Repr, DecidableEq

/-- Modelled from the spec: "at each position test for an exact byte match of
`pattern`" (spec section 4.1).  `matchesAt pattern l = true` iff `pattern` is an
exact byte match at the head of `l`. -/
def matchesAt : List Nat → List Nat → Bool
  | [], _ => true
  | _ :: _, [] => false
  | p :: ps, b :: bs => p == b && matchesAt ps bs

/-- Modelled from the spec: the linear left-to-right scan of ByteScanner (spec
section 4.1): "on match, record an Occurrence and advance the scan cursor to the
end of the match ...; otherwise advance by one byte".  Recursion is fueled by
the buffer length so the function computes by kernel reduction; `findAll`
supplies fuel equal to the buffer length, which bounds the number of steps. -/
def scanFuel (pattern : List Nat) : Nat → List Nat → Nat → List Occurrence
  | 0, _, _ => []
  | _ + 1, [], _ => []
  | fuel + 1, b :: rest, pos =>
    if matchesAt pattern (b :: rest) then
      ⟨pos, pattern.length⟩ ::
        scanFuel pattern fuel (rest.drop (pattern.length - 1)) (pos + pattern.length)
    else
      scanFuel pattern fuel rest (pos + 1)

/-- Modelled from the spec: ByteScanner's contract `findAll(buffer, pattern)`
(spec section 4.1).  The input constraint says the pattern must be non-empty;
for the excluded empty pattern (which has "no well-defined match semantics",
spec section 3) the model returns no occurrences. -/
def findAll (buffer pattern : List Nat) : List Occurrence :=
  if pattern.isEmpty then [] else scanFuel pattern buffer.length buffer 0

/-- Modelled from the spec: the error taxonomy of the planner (spec section 7):
`ValidationError(EmptyPattern)` and `ValidationError(Overflow)`. -/
inductive ValidationError where
  | EmptyPattern
  | Overflow
deriving Repr, DecidableEq

/-- Modelled from the spec: derivation of ReplacementPattern (spec sections 3
and 4.2): the encoded replace text, "optionally extended by one trailing zero
byte when the null-termination policy is enabled". -/
def deriveReplacement (replaceText : List Nat) (nullTerminate : Bool) : List Nat :=
  replaceText ++ (if nullTerminate then [0] else [])

/-- Modelled from the spec: a ReplacementPlan carries "the ordered sequence of
Occurrences paired with the fixed ReplacementPattern" (spec section 3).  The
legality verdict is carried by the `Except` result of `plan`: a returned plan
is an "allowed" plan, a denial is the error. -/
structure ReplacementPlan where
  occurrences : List Occurrence
  replacement : List Nat
deriving Repr, DecidableEq

/-- Modelled from the spec: ReplacementPlanner's `plan` (spec section 4.2).
It derives the patterns, fails with `EmptyPattern` on an empty search pattern,
invokes ByteScanner, and applies the length-policy check per occurrence (zero
occurrences thus yield a legal no-op plan).  Planning is a pure function, so the
buffer is never mutated by it. -/
def plan (buffer findText replaceText : List Nat) (nullTerminate allowOverflow : Bool) :
    Except ValidationError ReplacementPlan :=
  let searchPattern := findText
  let replacementPattern := deriveReplacement replaceText nullTerminate
  if searchPattern.isEmpty then
    .error .EmptyPattern
  else
    let occs := findAll buffer searchPattern
    if occs.all (fun _ => decide (replacementPattern.length ≤ searchPattern.length)
        || allowOverflow) then
      .ok ⟨occs, replacementPattern⟩
    else
      .error .Overflow

/-- Modelled from the spec: the output-buffer assembly of ResourceMutator (spec
section 4.3): "copying unaffected regions verbatim and substituting
ReplacementPattern at each Occurrence's offset, processing occurrences in
ascending offset order", with offsets read against the original buffer. -/
def substitute (buffer replacement : List Nat) : List Occurrence → Nat → List Nat
  | [], cursor => buffer.drop cursor
  | occ :: rest, cursor =>
    (buffer.drop cursor).take (occ.start - cursor) ++ replacement
      ++ substitute buffer replacement rest (occ.start + occ.length)

/-- Modelled from the spec: ResourceMutator's `apply(buffer, plan)` (spec
section 4.3), producing "a brand-new ResourceBuffer reflecting all
substitutions".  Legality of the plan is already encoded by `plan`'s `Except`
result, so `apply` takes an allowed plan. -/
def apply (buffer : List Nat) (p : ReplacementPlan) : List Nat :=
  substitute buffer p.replacement p.occurrences 0

/-- Boolean disjointness of the byte sets of two byte sequences: no byte of
`xs` occurs anywhere in `ys`. -/
def bytesDisjoint (xs ys : List Nat) : Bool :=
  decide (∀ b ∈ xs, b ∉ ys)

/-- One replacement pass written as a direct recursion over the buffer; used as
a proof device to reason about `apply` composed with `findAll`. -/
def replaceAllFuel (P R : List Nat) : Nat → List Nat → List Nat
  | 0, _ => []
  | _ + 1, [] => []
  | fuel + 1, b :: rest =>
    if matchesAt P (b :: rest) then
      R ++ replaceAllFuel P R fuel (rest.drop (P.length - 1))
    else
      b :: replaceAllFuel P R fuel rest

/-- `P` occurs somewhere inside `buf` as a contiguous byte run. -/
def occursIn (P buf : List Nat) : Prop :=
  ∃ s t, buf = s ++ P ++ t

/-! ### Basic lemmas about the scanner -/

theorem matchesAt_iff (P : List Nat) : ∀ l, matchesAt P l = true ↔ ∃ t, l = P ++ t := by
  induction P with
  | nil =>
    intro l
    simp [matchesAt]
  | cons p ps ih =>
    intro l
    cases l with
    | nil =>
      simp [matchesAt]
    | cons b bs =>
      simp only [matchesAt, Bool.and_eq_true, beq_iff_eq, ih bs, List.cons_append,
        List.cons.injEq]
      constructor
      · rintro ⟨hpb, t, ht⟩
        exact ⟨t, hpb.symm, ht⟩
      · rintro ⟨t, hbp, ht⟩
        exact ⟨hbp.symm, t, ht⟩

theorem scanFuel_mem (P : List Nat) (hP : P ≠ []) :
    ∀ fuel buf pos, buf.length ≤ fuel → ∀ o ∈ scanFuel P fuel buf pos,
      pos ≤ o.start ∧ o.length = P.length ∧ (buf.drop (o.start - pos)).take P.length = P := by
  intro fuel
  induction fuel with
  | zero =>
    intro buf pos _ o ho
    simp [scanFuel] at ho
  | succ f ih =>
    intro buf pos hlen o ho
    cases buf with
    | nil => simp [scanFuel] at ho
    | cons b rest =>
      have hP1 : 1 ≤ P.length := by
        cases P with
        | nil => exact absurd rfl hP
        | cons _ _ => simp
      rw [scanFuel] at ho
      by_cases hm : matchesAt P (b :: rest) = true
      · rw [if_pos hm] at ho
        rcases List.mem_cons.mp ho with h | h
        · subst h
          refine ⟨Nat.le_refl _, rfl, ?_⟩
          simp only [Nat.sub_self, List.drop_zero]
          rcases (matchesAt_iff P (b :: rest)).mp hm with ⟨t, ht⟩
          rw [ht, List.take_left]
        · have hlen₂ : (rest.drop (P.length - 1)).length ≤ f := by
            simp only [List.length_drop]
            have : rest.length ≤ f := by
              simpa using Nat.le_of_succ_le_succ hlen
            omega
          rcases ih (rest.drop (P.length - 1)) (pos + P.length) hlen₂ o h with
            ⟨h₁, h₂, h₃⟩
          refine ⟨Nat.le_trans (Nat.le_add_right pos P.length) h₁, h₂, ?_⟩
          have hdrop : (b :: rest).drop (o.start - pos)
              = (rest.drop (P.length - 1)).drop (o.start - (pos + P.length)) := by
            rw [List.drop_drop]
            have h4 : P.length - 1 + (o.start - (pos + P.length)) = o.start - pos - 1 := by
              omega
            rw [h4]
            have h5 : o.start - pos = (o.start - pos - 1) + 1 := by omega
            rw [h5]
            simp [List.drop_succ_cons]
          rw [hdrop]
          exact h₃
      · rw [if_neg hm] at ho
        have hlen₂ : rest.length ≤ f := by
          simpa using Nat.le_of_succ_le_succ hlen
        rcases ih rest (pos + 1) hlen₂ o ho with ⟨h₁, h₂, h₃⟩
        refine ⟨Nat.le_trans (Nat.le_add_right pos 1) h₁, h₂, ?_⟩
        have hdrop : (b :: rest).drop (o.start - pos) = rest.drop (o.start - (pos + 1)) := by
          have h5 : o.start - pos = (o.start - (pos + 1)) + 1 := by omega
          rw [h5]
          simp [List.drop_succ_cons]
        rw [hdrop]
        exact h₃

theorem scanFuel_pairwise (P : List Nat) (hP : P ≠ []) :
    ∀ fuel buf pos, buf.length ≤ fuel →
      List.Pairwise (fun o₁ o₂ : Occurrence =>
        o₁.start + o₁.length ≤ o₂.start ∧ o₁.start < o₂.start) (scanFuel P fuel buf pos) := by
  intro fuel
  induction fuel with
  | zero =>
    intro buf pos _
    simp [scanFuel]
  | succ f ih =>
    intro buf pos hlen
    cases buf with
    | nil => simp [scanFuel]
    | cons b rest =>
      have hP1 : 1 ≤ P.length := by
        cases P with
        | nil => exact absurd rfl hP
        | cons _ _ => simp
      rw [scanFuel]
      by_cases hm : matchesAt P (b :: rest) = true
      · rw [if_pos hm]
        have hlen₂ : (rest.drop (P.length - 1)).length ≤ f := by
          simp only [List.length_drop]
          have : rest.length ≤ f := by simpa using Nat.le_of_succ_le_succ hlen
          omega
        refine List.Pairwise.cons ?_ (ih _ _ hlen₂)
        intro o ho
        have := (scanFuel_mem P hP f _ _ hlen₂ o ho).1
        constructor
        · exact this
        · exact Nat.lt_of_lt_of_le (Nat.lt_add_of_pos_right hP1) this
      · rw [if_neg hm]
        have hlen₂ : rest.length ≤ f := by simpa using Nat.le_of_succ_le_succ hlen
        exact ih rest (pos + 1) hlen₂

/-! ### Planner lemmas -/

theorem all_const_eq (l : List Occurrence) (c : Bool) : l.all (fun _ => c) = (l.isEmpty || c) := by
  induction l with
  | nil => simp
  | cons x xs ih => cases c <;> simp [ih]

theorem plan_guard_false_iff (occs : List Occurrence) (rlen slen : Nat) (ao : Bool) :
    occs.all (fun _ => decide (rlen ≤ slen) || ao) = false ↔
      occs ≠ [] ∧ ao = false ∧ slen < rlen := by
  rw [all_const_eq]
  simp only [Bool.or_eq_false_iff, List.isEmpty_eq_false, decide_eq_false_iff_not, Nat.not_le]
  tauto

theorem plan_overflow_iff (B findText replaceText : List Nat) (nt ao : Bool)
    (hfind : findText ≠ []) :
    plan B findText replaceText nt ao = .error .Overflow ↔
      findAll B findText ≠ [] ∧ ao = false ∧
        findText.length < (deriveReplacement replaceText nt).length := by
  have hfe : findText.isEmpty = false := List.isEmpty_eq_false.mpr hfind
  have key := plan_guard_false_iff (findAll B findText)
    (deriveReplacement replaceText nt).length findText.length ao
  constructor
  · intro h
    apply key.mp
    by_contra hc
    rw [Bool.not_eq_false] at hc
    simp [plan, hfe, hc] at h
  · intro hr
    have hcf := key.mpr hr
    simp [plan, hfe, hcf]

theorem plan_ok_inv (B findText replaceText : List Nat) (nt ao : Bool)
    (pl : ReplacementPlan) (h : plan B findText replaceText nt ao = .ok pl) :
    pl.occurrences = findAll B findText ∧ pl.replacement = deriveReplacement replaceText nt := by
  obtain ⟨plo, plr⟩ := pl
  by_cases hfe : findText.isEmpty
  · simp [plan, hfe] at h
  · rw [Bool.not_eq_true] at hfe
    cases hall : (findAll B findText).all
        (fun _ => decide ((deriveReplacement replaceText nt).length ≤ findText.length) || ao) with
    | false => simp [plan, hfe, hall] at h
    | true =>
      simp only [plan, hfe, Bool.false_eq_true, if_false, hall, if_true, Except.ok.injEq,
        ReplacementPlan.mk.injEq] at h
      exact ⟨h.1.symm, h.2.symm⟩

theorem plan_ok_findText_ne_nil (B findText replaceText : List Nat) (nt ao : Bool)
    (pl : ReplacementPlan) (h : plan B findText replaceText nt ao = .ok pl) :
    findText ≠ [] := by
  intro hnil
  subst hnil
  simp [plan] at h

/-! ### Claim C1 -/

/-- C1: for every buffer containing at least one occurrence of the search
pattern, if the derived ReplacementPattern is longer than the SearchPattern and
`allowOverflow` is false, `plan` fails with `ValidationError(Overflow)`.  The
buffer is left unchanged automatically: `plan` is a pure function that does not
return a buffer at all (spec: "planning never mutates `buffer`"). -/
theorem C1_overflow_denied (B findText replaceText : List Nat) (nt : Bool)
    (hocc : findAll B findText ≠ [])
    (hlen : findText.length < (deriveReplacement replaceText nt).length) :
    plan B findText replaceText nt false = .error .Overflow :=
  have hfind : findText ≠ [] := fun h => hocc (by simp [h, findAll])
  (plan_overflow_iff B findText replaceText nt false hfind).mpr ⟨hocc, rfl, hlen⟩

theorem C1_overflow_denied_witness :
    plan [1, 2, 3] [2] [9, 9] false false = .error .Overflow :=
  C1_overflow_denied [1, 2, 3] [2] [9, 9] false (by decide) (by decide)

/-! ### Claim C2 -/

/-- C2: for every buffer and every `findText` that encodes to zero bytes (the
documented default encoding is the raw byte sequence, so that is `findText =
[]`), `plan` fails with `ValidationError(EmptyPattern)` regardless of
`replaceText` and the two policy flags.  The buffer is left unchanged
automatically: `plan` is pure and returns no buffer. -/
theorem C2_empty_pattern (B replaceText : List Nat) (nt ao : Bool) :
    plan B [] replaceText nt ao = .error .EmptyPattern := rfl

/-! ### Claim C3 -/

/-- C3: for every buffer `B` and non-empty pattern `P`, `findAll B P` returns
occurrences with strictly ascending, non-overlapping start offsets (no later
occurrence starts inside an already-matched region, i.e. earlier start plus
length is at most the later start), and the bytes of `B` at each occurrence
equal `P` (each occurrence's length being `P`'s length). -/
theorem C3_findAll_sound (B P : List Nat) (hP : P ≠ []) :
    (∀ o ∈ findAll B P, o.length = P.length ∧ (B.drop o.start).take P.length = P) ∧
    List.Pairwise (fun o₁ o₂ : Occurrence =>
      o₁.start + o₁.length ≤ o₂.start ∧ o₁.start < o₂.start) (findAll B P) := by
  have hem : P.isEmpty = false := List.isEmpty_eq_false.mpr hP
  constructor
  · intro o ho
    rw [findAll, hem] at ho
    simp only [Bool.false_eq_true, if_false] at ho
    have := scanFuel_mem P hP B.length B 0 (Nat.le_refl _) o ho
    rw [Nat.sub_zero] at this
    exact ⟨this.2.1, this.2.2⟩
  · rw [findAll, hem]
    simp only [Bool.false_eq_true, if_false]
    exact scanFuel_pairwise P hP B.length B 0 (Nat.le_refl _)

theorem C3_findAll_sound_witness :
    (Occurrence.mk 0 1).length = [1].length ∧
      (([1, 0, 1, 1] : List Nat).drop (Occurrence.mk 0 1).start).take [1].length = [1] :=
  (C3_findAll_sound [1, 0, 1, 1] [1] (by decide)).1 ⟨0, 1⟩ (by decide)

/-! ### Claim C4 -/

/-- C4: the ReplacementPattern the planner works with — both the one stored in
a successful plan and the one measured in the overflow length comparison —
equals the encoded `replaceText` with exactly one trailing zero byte appended
when `nullTerminate` is true, and equals the encoded `replaceText` unchanged
when `nullTerminate` is false. -/
theorem C4_replacement_derivation (B findText replaceText : List Nat) (ao : Bool)
    (hfind : findText ≠ []) :
    (∀ pl, plan B findText replaceText true ao = .ok pl →
      pl.replacement = replaceText ++ [0]) ∧
    (∀ pl, plan B findText replaceText false ao = .ok pl →
      pl.replacement = replaceText) ∧
    (plan B findText replaceText true ao = .error .Overflow ↔
      findAll B findText ≠ [] ∧ ao = false ∧ findText.length < (replaceText ++ [0]).length) ∧
    (plan B findText replaceText false ao = .error .Overflow ↔
      findAll B findText ≠ [] ∧ ao = false ∧ findText.length < replaceText.length) := by
  refine ⟨?_, ?_, ?_, ?_⟩
  · intro pl h
    rw [(plan_ok_inv B findText replaceText true ao pl h).2]
    rfl
  · intro pl h
    rw [(plan_ok_inv B findText replaceText false ao pl h).2]
    simp [deriveReplacement]
  · simpa [deriveReplacement] using plan_overflow_iff B findText replaceText true ao hfind
  · simpa [deriveReplacement] using plan_overflow_iff B findText replaceText false ao hfind

theorem C4_replacement_derivation_witness :
    plan [1] [1] [5] true false = .error .Overflow :=
  (C4_replacement_derivation [1] [1] [5] false (by decide)).2.2.1.mpr (by decide)

/-! ### Occurrence-freeness lemmas for claim C5 -/

theorem occursIn_cons_elim (P : List Nat) (b : Nat) (W : List Nat) :
    occursIn P (b :: W) → (∃ t, b :: W = P ++ t) ∨ occursIn P W := by
  rintro ⟨s, t, hst⟩
  cases s with
  | nil =>
    left
    exact ⟨t, by simpa using hst⟩
  | cons c s' =>
    right
    refine ⟨s', t, ?_⟩
    simp only [List.cons_append] at hst
    rw [List.cons.injEq] at hst
    exact hst.2

theorem occursIn_cons_intro (P : List Nat) (b : Nat) (W : List Nat) :
    occursIn P W → occursIn P (b :: W) := by
  rintro ⟨s, t, h⟩
  exact ⟨b :: s, t, by rw [h]; rfl⟩

theorem not_occursIn_nil (P : List Nat) (hP : P ≠ []) : ¬ occursIn P [] := by
  rintro ⟨s, t, h⟩
  have h' := h.symm
  simp only [List.append_assoc, List.append_eq_nil] at h'
  exact hP h'.2.1

theorem occursIn_elim_front (P : List Nat) (hP : P ≠ []) :
    ∀ (R Z : List Nat), (∀ b ∈ R, b ∉ P) → occursIn P (R ++ Z) → occursIn P Z := by
  intro R
  induction R with
  | nil =>
    intro Z _ h
    simpa using h
  | cons r R' ih =>
    intro Z hdisj h
    rw [List.cons_append] at h
    rcases occursIn_cons_elim P r (R' ++ Z) h with h' | h'
    · rcases h' with ⟨t, ht⟩
      cases P with
      | nil => exact absurd rfl hP
      | cons p P' =>
        rw [List.cons_append] at ht
        injection ht with h1 _
        have hrP : r ∈ p :: P' := by
          rw [h1]
          exact List.mem_cons_self p P'
        exact absurd hrP (hdisj r (List.mem_cons_self r R'))
    · exact ih Z (fun b hb => hdisj b (List.mem_cons_of_mem r hb)) h'

theorem prefix_replaceAllFuel (P R : List Nat) (hR : R ≠ []) :
    ∀ fuel buf Q, (∀ b ∈ Q, b ∉ R) →
      (∃ t, replaceAllFuel P R fuel buf = Q ++ t) → ∃ t, buf = Q ++ t := by
  intro fuel
  induction fuel with
  | zero =>
    intro buf Q _ h
    rcases h with ⟨t, ht⟩
    have hQ : Q = [] := (List.append_eq_nil.mp ht.symm).1
    exact ⟨buf, by rw [hQ]; rfl⟩
  | succ f ih =>
    intro buf Q hQmem h
    cases buf with
    | nil =>
      rcases h with ⟨t, ht⟩
      have hQ : Q = [] := (List.append_eq_nil.mp ht.symm).1
      exact ⟨[], by rw [hQ]; rfl⟩
    | cons b rest =>
      rw [replaceAllFuel] at h
      by_cases hm : matchesAt P (b :: rest) = true
      · rw [if_pos hm] at h
        cases Q with
        | nil => exact ⟨b :: rest, rfl⟩
        | cons q Q' =>
          rcases h with ⟨t, ht⟩
          cases R with
          | nil => exact absurd rfl hR
          | cons r R' =>
            rw [List.cons_append, List.cons_append] at ht
            injection ht with h1 _
            have hqR : q ∈ r :: R' := by
              rw [← h1]
              exact List.mem_cons_self r R'
            exact absurd hqR (hQmem q (List.mem_cons_self q Q'))
      · rw [if_neg hm] at h
        cases Q with
        | nil => exact ⟨b :: rest, rfl⟩
        | cons q Q' =>
          rcases h with ⟨t, ht⟩
          rw [List.cons_append] at ht
          injection ht with h1 h2
          have hQ' : ∀ c ∈ Q', c ∉ R := fun c hc => hQmem c (List.mem_cons_of_mem q hc)
          rcases ih rest Q' hQ' ⟨t, h2⟩ with ⟨t', ht'⟩
          exact ⟨t', by rw [List.cons_append, ← h1, ← ht']⟩

theorem not_occursIn_replaceAllFuel (P R : List Nat) (hP : P ≠ []) (hR : R ≠ [])
    (hdisj : ∀ b ∈ R, b ∉ P) :
    ∀ fuel buf, ¬ occursIn P (replaceAllFuel P R fuel buf) := by
  intro fuel
  induction fuel with
  | zero =>
    intro buf h
    exact not_occursIn_nil P hP h
  | succ f ih =>
    intro buf h
    cases buf with
    | nil => exact not_occursIn_nil P hP h
    | cons b rest =>
      rw [replaceAllFuel] at h
      by_cases hm : matchesAt P (b :: rest) = true
      · rw [if_pos hm] at h
        exact ih _ (occursIn_elim_front P hP R _ hdisj h)
      · rw [if_neg hm] at h
        rcases occursIn_cons_elim P b _ h with h' | h'
        · rcases h' with ⟨t, ht⟩
          rcases hPc : P with _ | ⟨p, Q⟩
          · exact hP hPc
          · rw [hPc, List.cons_append] at ht
            injection ht with h1 h2
            have hQR : ∀ c ∈ Q, c ∉ R := by
              intro c hc hcR
              exact hdisj c hcR (by rw [hPc]; exact List.mem_cons_of_mem p hc)
            rcases prefix_replaceAllFuel (p :: Q) R hR f rest Q hQR ⟨t, h2⟩ with ⟨t', ht'⟩
            apply hm
            apply (matchesAt_iff P (b :: rest)).mpr
            exact ⟨t', by rw [hPc, List.cons_append, ← h1, ← ht']⟩
        · exact ih rest h'

/-! ### Relating `apply` on a scan result to the direct replacement pass -/

theorem substitute_cons_shift (B R : List Nat) (b : Nat) (tl : List Nat) :
    ∀ (occs : List Occurrence) (c : Nat), B.drop c = b :: tl →
      (∀ o ∈ occs, c + 1 ≤ o.start) →
      substitute B R occs c = b :: substitute B R occs (c + 1) := by
  intro occs c hdrop hstart
  have h2 : (B.drop c).drop 1 = B.drop (c + 1) := List.drop_drop 1 c B
  have htl : B.drop (c + 1) = tl := by
    rw [← h2, hdrop]
    rfl
  cases occs with
  | nil =>
    show B.drop c = b :: B.drop (c + 1)
    rw [hdrop, htl]
  | cons occ rest =>
    have hst := hstart occ (List.mem_cons_self _ _)
    show (B.drop c).take (occ.start - c) ++ R ++ substitute B R rest (occ.start + occ.length)
      = b :: ((B.drop (c + 1)).take (occ.start - (c + 1)) ++ R
          ++ substitute B R rest (occ.start + occ.length))
    rw [hdrop, htl]
    have hk : occ.start - c = (occ.start - (c + 1)) + 1 := by omega
    rw [hk, List.take_succ_cons, List.cons_append, List.cons_append]

theorem substitute_scanFuel_eq (P R : List Nat) (hP : P ≠ []) :
    ∀ fuel (B buf : List Nat) (pos : Nat), buf.length ≤ fuel → buf = B.drop pos →
      substitute B R (scanFuel P fuel buf pos) pos = replaceAllFuel P R fuel buf := by
  intro fuel
  induction fuel with
  | zero =>
    intro B buf pos hlen hbuf
    have hnil : buf = [] := List.length_eq_zero.mp (Nat.le_zero.mp hlen)
    subst hnil
    show B.drop pos = []
    exact hbuf.symm
  | succ f ih =>
    intro B buf pos hlen hbuf
    cases buf with
    | nil =>
      show B.drop pos = []
      exact hbuf.symm
    | cons b rest =>
      have hP1 : 1 ≤ P.length := by
        cases P with
        | nil => exact absurd rfl hP
        | cons _ _ => simp
      have hrest : rest.length ≤ f := by
        simpa using Nat.le_of_succ_le_succ hlen
      rw [scanFuel, replaceAllFuel]
      by_cases hm : matchesAt P (b :: rest) = true
      · rw [if_pos hm, if_pos hm]
        show (B.drop pos).take (pos - pos) ++ R
            ++ substitute B R (scanFuel P f (rest.drop (P.length - 1)) (pos + P.length))
              (pos + P.length)
          = R ++ replaceAllFuel P R f (rest.drop (P.length - 1))
        rw [Nat.sub_self, List.take_zero, List.nil_append]
        congr 1
        apply ih
        · simp only [List.length_drop]
          omega
        · calc rest.drop (P.length - 1) = (b :: rest).drop P.length := by
                rw [show P.length = (P.length - 1) + 1 from by omega]
                rfl
          _ = (B.drop pos).drop P.length := by rw [hbuf]
          _ = B.drop (pos + P.length) := List.drop_drop P.length pos B
      · rw [if_neg hm, if_neg hm]
        have hrbuf : rest = B.drop (pos + 1) := by
          rw [← List.drop_drop 1 pos B, ← hbuf, List.drop_succ_cons, List.drop_zero]
        have hstarts : ∀ o ∈ scanFuel P f rest (pos + 1), pos + 1 ≤ o.start :=
          fun o ho => (scanFuel_mem P hP f rest (pos + 1) hrest o ho).1
        rw [substitute_cons_shift B R b rest (scanFuel P f rest (pos + 1)) pos hbuf.symm hstarts]
        congr 1
        exact ih B rest (pos + 1) hrest hrbuf

theorem scanFuel_eq_nil_of_not_occursIn (P : List Nat) :
    ∀ fuel buf pos, ¬ occursIn P buf → scanFuel P fuel buf pos = [] := by
  intro fuel
  induction fuel with
  | zero =>
    intro buf pos _
    rfl
  | succ f ih =>
    intro buf pos hno
    cases buf with
    | nil => rfl
    | cons b rest =>
      rw [scanFuel]
      have hm : ¬ matchesAt P (b :: rest) = true := by
        intro hm
        rcases (matchesAt_iff P (b :: rest)).mp hm with ⟨t, ht⟩
        exact hno ⟨[], t, by rw [ht]; rfl⟩
      rw [if_neg hm]
      exact ih rest (pos + 1) (fun h' => hno (occursIn_cons_intro P b rest h'))

/-! ### Claim C5 -/

/-- C5 counterexample: the claim that applying a legal plan built from
byte-disjoint search and replacement patterns leaves no occurrence of the
search pattern fails when the replacement pattern is empty.  With buffer
`[0,0,1,1]`, search pattern `[0,1]` and the (vacuously disjoint) empty
replacement, the legal plan deletes the single match at offset 1 and the two
previously separated halves `[0]` and `[1]` join into a fresh occurrence of
`[0,1]` at offset 0 of the output. -/
theorem C5_counterexample :
    bytesDisjoint ([] : List Nat) [0, 1] = true ∧
    plan [0, 0, 1, 1] [0, 1] [] false false = .ok ⟨[⟨1, 2⟩], []⟩ ∧
    apply [0, 0, 1, 1] ⟨[⟨1, 2⟩], []⟩ = [0, 1] ∧
    findAll (apply [0, 0, 1, 1] ⟨[⟨1, 2⟩], []⟩) [0, 1] = [⟨0, 2⟩] :=
  ⟨by decide, rfl, rfl, rfl⟩

/-- C5 (amended): for every buffer and every legal replacement plan whose
replacement pattern is non-empty and byte-disjoint from the search pattern,
searching the applied result for the original `findText` yields zero
occurrences.  (The amendment adds the non-emptiness of the replacement
pattern, which the counterexample shows is necessary.) -/
theorem C5_no_reintroduction (B findText replaceText : List Nat) (nt ao : Bool)
    (pl : ReplacementPlan) (hplan : plan B findText replaceText nt ao = .ok pl)
    (hne : pl.replacement ≠ [])
    (hdisj : bytesDisjoint pl.replacement findText = true) :
    findAll (apply B pl) findText = [] := by
  have hfind : findText ≠ [] := plan_ok_findText_ne_nil B findText replaceText nt ao pl hplan
  have hinv := plan_ok_inv B findText replaceText nt ao pl hplan
  have hdisj' : ∀ b ∈ pl.replacement, b ∉ findText := of_decide_eq_true hdisj
  have hem : findText.isEmpty = false := List.isEmpty_eq_false.mpr hfind
  have happly : apply B pl = replaceAllFuel findText pl.replacement B.length B := by
    rw [apply, hinv.1, findAll, hem]
    simp only [Bool.false_eq_true, if_false]
    exact substitute_scanFuel_eq findText pl.replacement hfind B.length B B 0
      (Nat.le_refl _) (List.drop_zero B).symm
  rw [happly, findAll, hem]
  simp only [Bool.false_eq_true, if_false]
  exact scanFuel_eq_nil_of_not_occursIn findText _ _ 0
    (not_occursIn_replaceAllFuel findText pl.replacement hfind hne hdisj' B.length B)

theorem C5_no_reintroduction_witness :
    findAll (apply [1, 2, 1, 2] ⟨[⟨0, 1⟩, ⟨2, 1⟩], [3]⟩) [1] = [] :=
  C5_no_reintroduction [1, 2, 1, 2] [1] [3] false false ⟨[⟨0, 1⟩, ⟨2, 1⟩], [3]⟩
    rfl (by decide) (by decide)

/-!
### Presentation layer: `src/frontend/src/FindReplaceView.svelte`

The Svelte component is actual repository source.  Its JavaScript semantics
are embedded below: `JsValue` models the values `JSON.parse` can produce,
`JsOpt` models a JavaScript variable that may also hold `undefined`, and the
platform builtin `JSON.parse` (which has no source in the repository) is
modelled by `jsonParse`, a strict JSON reader following the ECMAScript JSON
grammar (value, object, array, string with escapes, number, `true`, `false`,
`null`, with JSON whitespace).
-/

/-- A JavaScript value as producible by `JSON.parse`: `null`, booleans,
numbers (kept as their source lexeme, which is all the component ever
distinguishes), strings, arrays and objects. -/
inductive JsValue where
  | null
  | bool (b : Bool)
  | num (lex : String)
  | str (s : String)
  | arr (xs : List JsValue)
  | obj (fields : List (String × JsValue))

/-- A JavaScript variable slot: either `undefined` or a value. -/
inductive JsOpt where
  | undefined
  | val (v : JsValue)

/-- Discriminator for the `undefined` slot. -/
def JsOpt.isUndefined : JsOpt → Bool
  | .undefined => true
  | .val _ => false

/-- A JavaScript error object as observed by the handler: only its `message`
string is read. -/
structure JsError where
  message : String

/-- Property access `v[key]` on a parsed JSON value, with JavaScript
semantics: reading a property of `null` throws a `TypeError` (the `Except`
error); every other value yields the property value, or `undefined` when the
property is absent (primitives and arrays have no own `message` property). -/
def jsGetMember (v : JsValue) (key : String) : Except Unit JsOpt :=
  match v with
  | .null => .error ()
  | .obj fields =>
    .ok (match fields.lookup key with
      | some x => .val x
      | none => .undefined)
  | _ => .ok .undefined

/-- Whether a JSON number lexeme denotes zero (its only falsy case): every
digit of its mantissa is `0`. -/
def jsNumLexIsZero (lex : String) : Bool :=
  (lex.data.takeWhile (fun c => !(c == 'e' || c == 'E'))).all
    (fun c => !c.isDigit || c == '0')

/-- JavaScript truthiness of a variable slot, as used by `if (errorMessage)`
and `if ($selectedResource)`: `undefined`, `null`, `false`, zero and the empty
string are falsy, everything else is truthy. -/
def jsTruthy : JsOpt → Bool
  | .undefined => false
  | .val .null => false
  | .val (.bool b) => b
  | .val (.num lex) => !jsNumLexIsZero lex
  | .val (.str s) => !s.isEmpty
  | .val (.arr _) => true
  | .val (.obj _) => true

/-! ### A model of the platform builtin `JSON.parse` -/

/-- The double-quote character. -/
def jsQuote : Char := Char.ofNat 34

/-- The backslash character. -/
def jsBackslash : Char := Char.ofNat 92

/-- The opening curly bracket. -/
def jsLBrace : Char := Char.ofNat 123

/-- The closing curly bracket. -/
def jsRBrace : Char := Char.ofNat 125

/-- JSON insignificant whitespace: space, tab, line feed, carriage return. -/
def jsonWs (c : Char) : Bool :=
  c == ' ' || c == Char.ofNat 9 || c == Char.ofNat 10 || c == Char.ofNat 13

/-- Skip leading JSON whitespace. -/
def skipWs : List Char → List Char
  | [] => []
  | c :: rest => if jsonWs c then skipWs rest else c :: rest

/-- Value of one hexadecimal digit, if any. -/
def hexVal (c : Char) : Option Nat :=
  if c.isDigit then some (c.toNat - 48)
  else if 'a' ≤ c ∧ c ≤ 'f' then some (c.toNat - 87)
  else if 'A' ≤ c ∧ c ≤ 'F' then some (c.toNat - 55)
  else none

/-- Parse the body of a JSON string after the opening quote, handling the
JSON escape sequences and rejecting raw control characters; returns the
decoded string and the input remaining after the closing quote. -/
def parseStringBody : Nat → List Char → List Char → Option (String × List Char)
  | 0, _, _ => none
  | _ + 1, [], _ => none
  | f + 1, c :: rest, acc =>
    if c = jsQuote then some (String.mk acc.reverse, rest)
    else if c = jsBackslash then
      match rest with
      | [] => none
      | e :: rest₂ =>
        if e = jsQuote then parseStringBody f rest₂ (jsQuote :: acc)
        else if e = jsBackslash then parseStringBody f rest₂ (jsBackslash :: acc)
        else if e = '/' then parseStringBody f rest₂ ('/' :: acc)
        else if e = 'b' then parseStringBody f rest₂ (Char.ofNat 8 :: acc)
        else if e = 'f' then parseStringBody f rest₂ (Char.ofNat 12 :: acc)
        else if e = 'n' then parseStringBody f rest₂ (Char.ofNat 10 :: acc)
        else if e = 'r' then parseStringBody f rest₂ (Char.ofNat 13 :: acc)
        else if e = 't' then parseStringBody f rest₂ (Char.ofNat 9 :: acc)
        else if e = 'u' then
          match rest₂ with
          | h₁ :: h₂ :: h₃ :: h₄ :: rest₃ =>
            match hexVal h₁, hexVal h₂, hexVal h₃, hexVal h₄ with
            | some a, some b, some c', some d =>
              parseStringBody f rest₃ (Char.ofNat (4096 * a + 256 * b + 16 * c' + d) :: acc)
            | _, _, _, _ => none
          | _ => none
        else none
    else if c.toNat < 32 then none
    else parseStringBody f rest (c :: acc)

/-- Parse the fractional part of a JSON number, if present. -/
def parseFrac (cs : List Char) : Option (List Char × List Char) :=
  match cs with
  | c :: rest =>
    if c = '.' then
      let ds := rest.takeWhile Char.isDigit
      if ds.isEmpty then none else some ('.' :: ds, rest.dropWhile Char.isDigit)
    else some ([], cs)
  | [] => some ([], cs)

/-- Parse the exponent part of a JSON number, if present. -/
def parseExp (cs : List Char) : Option (List Char × List Char) :=
  match cs with
  | c :: rest =>
    if c = 'e' ∨ c = 'E' then
      let (sgn, rest₂) := match rest with
        | s :: r₂ => if s = '+' ∨ s = '-' then ([s], r₂) else (([] : List Char), rest)
        | [] => ([], rest)
      let ds := rest₂.takeWhile Char.isDigit
      if ds.isEmpty then none
      else some (c :: (sgn ++ ds), rest₂.dropWhile Char.isDigit)
    else some ([], cs)
  | [] => some ([], cs)

/-- Parse a JSON number (sign, integer part without leading zeros, optional
fraction and exponent), returning its lexeme. -/
def parseNumber (cs : List Char) : Option (String × List Char) :=
  let (sign, cs₁) := match cs with
    | c :: rest => if c = '-' then (['-'], rest) else (([] : List Char), cs)
    | [] => ([], cs)
  match cs₁ with
  | [] => none
  | c :: rest =>
    if ¬ c.isDigit then none
    else
      let (intPart, cs₂) :=
        if c = '0' then (['0'], rest)
        else (c :: rest.takeWhile Char.isDigit, rest.dropWhile Char.isDigit)
      match parseFrac cs₂ with
      | none => none
      | some (fracPart, cs₃) =>
        match parseExp cs₃ with
        | none => none
        | some (expPart, cs₄) =>
          some (String.mk (sign ++ intPart ++ fracPart ++ expPart), cs₄)

mutual

/-- Parse one JSON value from the input, returning it and the remaining
input.  Mirrors the ECMAScript JSON grammar used by `JSON.parse`. -/
def parseValue : Nat → List Char → Option (JsValue × List Char)
  | 0, _ => none
  | fuel + 1, cs =>
    match skipWs cs with
    | [] => none
    | c :: rest =>
      if c = 'n' then
        if rest.take 3 = ['u', 'l', 'l'] then some (.null, rest.drop 3) else none
      else if c = 't' then
        if rest.take 3 = ['r', 'u', 'e'] then some (.bool true, rest.drop 3) else none
      else if c = 'f' then
        if rest.take 4 = ['a', 'l', 's', 'e'] then some (.bool false, rest.drop 4) else none
      else if c = jsQuote then
        match parseStringBody (rest.length + 1) rest [] with
        | some (s, rest₂) => some (.str s, rest₂)
        | none => none
      else if c = jsLBrace then
        match skipWs rest with
        | [] => none
        | d :: rest₂ =>
          if d = jsRBrace then some (.obj [], rest₂)
          else parseMembers fuel (d :: rest₂) []
      else if c = '[' then
        match skipWs rest with
        | [] => none
        | d :: rest₂ =>
          if d = ']' then some (.arr [], rest₂)
          else parseElements fuel (d :: rest₂) []
      else if c = '-' ∨ c.isDigit then
        match parseNumber (c :: rest) with
        | some (lex, rest₂) => some (.num lex, rest₂)
        | none => none
      else none

/-- Parse the members of a JSON object after its opening bracket (first
member pending), accumulating the fields in order. -/
def parseMembers : Nat → List Char → List (String × JsValue) →
    Option (JsValue × List Char)
  | 0, _, _ => none
  | fuel + 1, cs, acc =>
    match skipWs cs with
    | [] => none
    | c :: rest =>
      if c = jsQuote then
        match parseStringBody (rest.length + 1) rest [] with
        | none => none
        | some (key, rest₂) =>
          match skipWs rest₂ with
          | ':' :: rest₃ =>
            match parseValue fuel rest₃ with
            | none => none
            | some (v, rest₄) =>
              match skipWs rest₄ with
              | ',' :: rest₅ => parseMembers fuel rest₅ (acc ++ [(key, v)])
              | d :: rest₅ =>
                if d = jsRBrace then some (.obj (acc ++ [(key, v)]), rest₅) else none
              | [] => none
          | _ => none
      else none

/-- Parse the elements of a JSON array after its opening bracket (first
element pending), accumulating the elements in order. -/
def parseElements : Nat → List Char → List JsValue → Option (JsValue × List Char)
  | 0, _, _ => none
  | fuel + 1, cs, acc =>
    match parseValue fuel cs with
    | none => none
    | some (v, rest) =>
      match skipWs rest with
      | ',' :: rest₂ => parseElements fuel rest₂ (acc ++ [v])
      | ']' :: rest₂ => some (.arr (acc ++ [v]), rest₂)
      | _ => none

end

/-- Modelled platform builtin: `JSON.parse(s)` returns the parsed value, or
fails (throws `SyntaxError`, modelled as `none`) when `s` is not a complete
JSON text. -/
def jsonParse (s : String) : Option JsValue :=
  match parseValue (s.data.length + 1) s.data with
  | some (v, rest) => if (skipWs rest).isEmpty then some v else none
  | none => none

/-! ### The FindReplaceView component -/

/-- Initial value of the component binding `nullTerminated` (source line 131:
`nullTerminated = true`): the state of the checkbox before the user touches
it. -/
def initNullTerminated : Bool := true

/-- Initial value of the component binding `allowOverflow` (source line 132:
`allowOverflow = false`). -/
def initAllowOverflow : Bool := false

/-- Initial value of the component binding `errorMessage` (source line 133:
declared without initializer, hence `undefined`). -/
def initErrorMessage : JsOpt := .undefined

/-- The catch-handler of `findAndReplace` (source lines 155-161):
`try { errorMessage = JSON.parse(err.message).message } catch (_) {
errorMessage = err.message }`.  A `JSON.parse` failure or a throwing property
access both land in the inner catch, which stores the raw message string. -/
def handleError (raw : String) : JsOpt :=
  match jsonParse raw with
  | some v =>
    match jsGetMember v "message" with
    | .ok m => m
    | .error _ => .val (.str raw)
  | none => .val (.str raw)

/-- One call of `$selectedResource.find_and_replace(toFind, toReplace,
nullTerminated, allowOverflow)` as issued by the handler (source lines
145-150), recording the arguments it passes. -/
structure EngineCall where
  toFind : JsOpt
  toReplace : JsOpt
  nullTerminated : Bool
  allowOverflow : Bool

/-- Observable outcome of one run of the `findAndReplace` handler: the engine
calls it made, the final `modifierView` and `errorMessage` bindings, and the
sequence of assignments to the `$selected` store (the body of
`refreshResource`, source lines 135-140, writes `undefined` and then the
original value to force a view refresh). -/
structure HandlerOutcome where
  engineCalls : List EngineCall
  modifierView : JsOpt
  errorMessage : JsOpt
  selectedWrites : List JsOpt

/-- The `findAndReplace` click handler (source lines 142-162).  The engine
call happens only when `$selectedResource` is truthy; on success (or with no
engine call at all) the handler clears `modifierView` and runs
`refreshResource`; when the awaited call rejects, the catch block stores the
display message derived from the error and neither clears the view nor
refreshes.  `engineResult` is the settlement of the awaited engine call, only
consulted when the call is made. -/
def findAndReplace (selectedResource selected modifierView toFind toReplace : JsOpt)
    (nullTerminated allowOverflow : Bool) (errorMessage : JsOpt)
    (engineResult : Except JsError Unit) : HandlerOutcome :=
  let calls := if jsTruthy selectedResource then
      [⟨toFind, toReplace, nullTerminated, allowOverflow⟩] else []
  let outcome := if jsTruthy selectedResource then engineResult else Except.ok ()
  match outcome with
  | .ok _ => ⟨calls, .undefined, errorMessage, [.undefined, selected]⟩
  | .error err => ⟨calls, modifierView, handleError err.message, []⟩

/-! ### Handler display lemmas shared by C7 and C10 -/

theorem handleError_fallback (raw : String)
    (h : jsonParse raw = none ∨ jsonParse raw = some JsValue.null) :
    handleError raw = .val (.str raw) := by
  rcases h with h | h <;> simp [handleError, h, jsGetMember]

theorem handleError_parsed (raw : String) (v : JsValue) (hv : jsonParse raw = some v)
    (hvn : v ≠ JsValue.null) :
    Except.ok (handleError raw) = jsGetMember v "message" := by
  simp only [handleError, hv]
  cases v with
  | null => exact absurd rfl hvn
  | bool b => rfl
  | num lex => rfl
  | str s => rfl
  | arr xs => rfl
  | obj fields => rfl

/-! ### Claim C6 -/

/-- C6: in the presentation layer the `nullTerminate` flag defaults to `true`
and the `allowOverflow` flag defaults to `false` (source lines 131-132), and
when the handler runs with those untouched defaults the engine call receives
exactly those values in its third and fourth argument. -/
theorem C6_default_flags (selRes sel mv tf tr em : JsOpt) (res : Except JsError Unit)
    (hsel : jsTruthy selRes = true) :
    initNullTerminated = true ∧ initAllowOverflow = false ∧
    (findAndReplace selRes sel mv tf tr initNullTerminated initAllowOverflow em
        res).engineCalls = [⟨tf, tr, true, false⟩] := by
  refine ⟨rfl, rfl, ?_⟩
  cases res with
  | ok _ => simp [findAndReplace, hsel, initNullTerminated, initAllowOverflow]
  | error e => simp [findAndReplace, hsel, initNullTerminated, initAllowOverflow]

theorem C6_default_flags_witness :
    (findAndReplace (.val (.obj [])) .undefined .undefined .undefined .undefined initNullTerminated
        initAllowOverflow .undefined (.ok ())).engineCalls
      = [⟨.undefined, .undefined, true, false⟩] :=
  (C6_default_flags (.val (.obj [])) .undefined .undefined .undefined .undefined .undefined (.ok ()) rfl).2.2

/-! ### Claim C7 -/

/-- C7 counterexample: with a failed engine call whose message is the string
`"null"`, `JSON.parse` succeeds (returning `null`), yet the handler still
falls back to displaying the raw message text, because reading `.message` off
the parsed `null` throws; so "falls back if and only if parsing fails" is
wrong — fallback also happens on a successful parse of `null`. -/
theorem C7_counterexample :
    jsonParse "null" = some JsValue.null ∧
    jsGetMember JsValue.null "message" = .error () ∧
    handleError "null" = .val (.str "null") :=
  ⟨rfl, rfl, rfl⟩

/-- C7 (amended): on a failed engine call the handler displays the `message`
member of the parsed structure, and falls back to the raw error message text
exactly when the parse fails or the parse succeeds with `null` (whose member
access throws inside the same try block). -/
theorem C7_error_display (raw : String) :
    ((jsonParse raw = none ∨ jsonParse raw = some JsValue.null) →
      handleError raw = .val (.str raw)) ∧
    (∀ v, jsonParse raw = some v → v ≠ JsValue.null →
      Except.ok (handleError raw) = jsGetMember v "message") :=
  ⟨handleError_fallback raw, fun v hv hvn => handleError_parsed raw v hv hvn⟩

theorem C7_error_display_witness :
    handleError "not json" = JsOpt.val (JsValue.str "not json") :=
  (C7_error_display "not json").1 (Or.inl rfl)

/-! ### Claim C8 -/

/-- C8: when the engine call succeeds the handler closes the modifier view
(sets it to `undefined`) and refreshes the resource view (writes `undefined`
and then the original value to the `$selected` store), with no error
reported; and a request whose pattern matches zero occurrences is exactly
such a success, since the planner returns a legal no-op plan for it. -/
theorem C8_success_closes_and_refreshes (selRes sel mv tf tr : JsOpt) (nt ao : Bool)
    (B findText replaceText : List Nat) (hsel : jsTruthy selRes = true)
    (hfind : findText ≠ []) (hocc : findAll B findText = []) :
    plan B findText replaceText nt ao = .ok ⟨[], deriveReplacement replaceText nt⟩ ∧
    (findAndReplace selRes sel mv tf tr nt ao initErrorMessage (.ok ())).engineCalls
      = [⟨tf, tr, nt, ao⟩] ∧
    (findAndReplace selRes sel mv tf tr nt ao initErrorMessage (.ok ())).modifierView
      = .undefined ∧
    (findAndReplace selRes sel mv tf tr nt ao initErrorMessage (.ok ())).selectedWrites
      = [.undefined, sel] ∧
    (findAndReplace selRes sel mv tf tr nt ao initErrorMessage (.ok ())).errorMessage
      = .undefined ∧
    jsTruthy (findAndReplace selRes sel mv tf tr nt ao initErrorMessage
      (.ok ())).errorMessage = false := by
  have hfe : findText.isEmpty = false := List.isEmpty_eq_false.mpr hfind
  refine ⟨?_, ?_, ?_, ?_, ?_, ?_⟩
  · simp [plan, hfe, hocc]
  · simp [findAndReplace, hsel]
  · simp [findAndReplace, hsel]
  · simp [findAndReplace, hsel]
  · simp [findAndReplace, hsel, initErrorMessage]
  · simp [findAndReplace, hsel, initErrorMessage, jsTruthy]

theorem C8_success_closes_and_refreshes_witness :
    plan [1, 1] [2] [3] true false = .ok ⟨[], deriveReplacement [3] true⟩ ∧
    (findAndReplace (.val (.obj [])) .undefined .undefined .undefined .undefined true false
      initErrorMessage (.ok ())).engineCalls = [⟨.undefined, .undefined, true, false⟩] ∧
    (findAndReplace (.val (.obj [])) .undefined .undefined .undefined .undefined true false
      initErrorMessage (.ok ())).modifierView = .undefined ∧
    (findAndReplace (.val (.obj [])) .undefined .undefined .undefined .undefined true false
      initErrorMessage (.ok ())).selectedWrites = [.undefined, .undefined] ∧
    (findAndReplace (.val (.obj [])) .undefined .undefined .undefined .undefined true false
      initErrorMessage (.ok ())).errorMessage = .undefined ∧
    jsTruthy (findAndReplace (.val (.obj [])) .undefined .undefined .undefined .undefined true false
      initErrorMessage (.ok ())).errorMessage = false :=
  C8_success_closes_and_refreshes (.val (.obj [])) .undefined .undefined .undefined .undefined true false
    [1, 1] [2] [3] rfl (by decide) rfl

/-! ### Claim C9 -/

/-- C9: when no resource is selected (`$selectedResource` is falsy) the
handler makes no engine call at all, yet still closes the modifier view and
triggers the resource refresh, and reports no error (the error binding is
left as it was, whatever the would-be engine result). -/
theorem C9_no_selected_resource (selRes sel mv tf tr : JsOpt) (nt ao : Bool)
    (em : JsOpt) (res : Except JsError Unit) (hsel : jsTruthy selRes = false) :
    (findAndReplace selRes sel mv tf tr nt ao em res).engineCalls = [] ∧
    (findAndReplace selRes sel mv tf tr nt ao em res).modifierView = .undefined ∧
    (findAndReplace selRes sel mv tf tr nt ao em res).selectedWrites = [.undefined, sel] ∧
    (findAndReplace selRes sel mv tf tr nt ao em res).errorMessage = em := by
  refine ⟨?_, ?_, ?_, ?_⟩ <;> simp [findAndReplace, hsel]

theorem C9_no_selected_resource_witness :
    (findAndReplace .undefined .undefined .undefined .undefined .undefined true false .undefined
      (.error ⟨"boom"⟩)).engineCalls = [] ∧
    (findAndReplace .undefined .undefined .undefined .undefined .undefined true false .undefined
      (.error ⟨"boom"⟩)).modifierView = .undefined ∧
    (findAndReplace .undefined .undefined .undefined .undefined .undefined true false .undefined
      (.error ⟨"boom"⟩)).selectedWrites = [.undefined, .undefined] ∧
    (findAndReplace .undefined .undefined .undefined .undefined .undefined true false .undefined
      (.error ⟨"boom"⟩)).errorMessage = .undefined :=
  C9_no_selected_resource .undefined .undefined .undefined .undefined .undefined true false .undefined
    (.error ⟨"boom"⟩) rfl

/-! ### Claim C10 -/

/-- C10 counterexample: the message `"null"` parses as valid JSON, yet the
displayed error text is the raw fallback message, not the parsed value's
`message` property (which cannot be read and is certainly not `undefined`):
the display is defined and a non-empty error text is rendered. -/
theorem C10_counterexample :
    jsonParse "null" = some JsValue.null ∧
    handleError "null" = JsOpt.val (JsValue.str "null") ∧
    JsOpt.isUndefined (handleError "null") = false ∧
    jsTruthy (handleError "null") = true :=
  ⟨rfl, rfl, rfl, rfl⟩

/-- C10 (amended): for every failed engine call whose error message parses as
valid JSON other than `null`, the displayed error is exactly the parsed
value's `message` property — `undefined` (and hence no rendered error text)
when that property is absent, with no fallback to the raw message. -/
theorem C10_parsed_display (raw : String) (v : JsValue)
    (hparse : jsonParse raw = some v) (hv : v ≠ JsValue.null) :
    Except.ok (handleError raw) = jsGetMember v "message" ∧
    (jsGetMember v "message" = .ok .undefined → jsTruthy (handleError raw) = false) := by
  have h1 := handleError_parsed raw v hparse hv
  refine ⟨h1, ?_⟩
  intro h2
  rw [h2] at h1
  injection h1 with h3
  rw [h3]
  rfl

theorem C10_parsed_display_witness :
    Except.ok (handleError "\x7b\x7d") = jsGetMember (JsValue.obj []) "message" ∧
    (jsGetMember (JsValue.obj []) "message" = .ok .undefined →
      jsTruthy (handleError "\x7b\x7d") = false) :=
  C10_parsed_display "\x7b\x7d" (JsValue.obj []) rfl (fun h => JsValue.noConfusion h)
